import Mathlib

/-!
# Vailix core: a shallow embedding of the proximity-tracing engine

This file embeds, in Lean, the data model and operations of the Vailix
repository (client package `@vailix/mask` and server package `@vailix/drop`)
and proves the specification's claims about them.

Modelling conventions:

* Machine bytes are `Nat` values (`< 256` where it matters); buffers are
  `List Nat`.
* JavaScript strings are Lean `String`s; where a string is only ever treated
  as a byte payload (UTF-8 metadata in the wire codec) it is modelled as its
  byte list directly.
* An IEEE-754 float64 value is modelled by its 64-bit pattern (a `Nat`
  `< 2^64`): `Buffer.writeDoubleBE` / `DataView.getFloat64` move a double
  to/from its 8 big-endian pattern bytes bit-identically, so at the level of
  this codec the value and its pattern are interchangeable.
* External library collaborators that are not code of this repository
  (HMAC-SHA256, AES-GCM, `fetch`, `Buffer.writeDoubleBE`) are universally
  quantified function parameters; everything the repository itself computes
  is a concrete executable definition.
-/

/-! ## Byte and hex helpers -/

/-- Lowercase hex digit character for a value `< 16`
(mirrors JavaScript `Number.prototype.toString(16)` digits). -/
def hexDigitChar (d : Nat) : Char :=
  if d < 10 then Char.ofNat (48 + d) else Char.ofNat (87 + d)

/-- Fuel-driven core of `Number.prototype.toString(16)`:
most-significant-first hex digits of `n`, no leading zeros. -/
def natToHexAux : Nat → Nat → List Char
  | 0, _ => []
  | fuel + 1, n =>
      if n < 16 then [hexDigitChar n]
      else natToHexAux fuel (n / 16) ++ [hexDigitChar (n % 16)]

/-- JavaScript `n.toString(16)` for a natural number. -/
def natToHex (n : Nat) : List Char := natToHexAux (n + 1) n

/-- JavaScript `String.prototype.padStart(2, '0')`. -/
def padStart2 (s : List Char) : List Char :=
  if s.length < 2 then List.replicate (2 - s.length) '0' ++ s else s

/-- One byte rendered as exactly two lowercase hex characters:
`b.toString(16).padStart(2, '0')` (from `matcher.ts` `_parseBinaryResponse`). -/
def byteToHex (b : Nat) : List Char := padStart2 (natToHex b)

/-- A byte list rendered as lowercase hex characters, byte by byte
(also the behaviour of Node's `digest('hex')` on a MAC output). -/
def bytesToHex (bs : List Nat) : List Char := bs.flatMap byteToHex

theorem byteToHex_length {b : Nat} (hb : b < 256) : (byteToHex b).length = 2 := by
  interval_cases b <;> decide

theorem bytesToHex_take {bs : List Nat} (hb : ∀ b ∈ bs, b < 256) (k : Nat) :
    (bytesToHex bs).take (2 * k) = bytesToHex (bs.take k) := by
  induction bs generalizing k with
  | nil => simp [bytesToHex]
  | cons b rest ih =>
      cases k with
      | zero => simp [bytesToHex]
      | succ k =>
          have hblen : (byteToHex b).length = 2 := byteToHex_length (hb b (by simp))
          have hrest : ∀ x ∈ rest, x < 256 := fun x hx => hb x (by simp [hx])
          simp only [bytesToHex, List.flatMap_cons, List.take_succ_cons]
          rw [List.take_append_eq_append_take, hblen]
          have h1 : 2 * (k + 1) ≥ 2 := by omega
          rw [List.take_of_length_le (by omega)]
          have h2 : 2 * (k + 1) - 2 = 2 * k := by omega
          rw [h2]
          exact congrArg (byteToHex b ++ ·) (ih hrest k)

/-- Big-endian byte encoding of `n` in exactly `w` bytes
(mirrors `Buffer.writeUIntBE`-family writes). -/
def beBytes : Nat → Nat → List Nat
  | 0, _ => []
  | w + 1, n => (n / 256 ^ w) % 256 :: beBytes w (n % 256 ^ w)

/-- Big-endian value of a byte list (mirrors `DataView.getUint*` reads). -/
def beVal (bs : List Nat) : Nat := bs.foldl (fun acc b => acc * 256 + b) 0

theorem beBytes_length (w n : Nat) : (beBytes w n).length = w := by
  induction w generalizing n with
  | zero => rfl
  | succ w ih => simp [beBytes, ih]

theorem beBytes_lt (w n : Nat) : ∀ b ∈ beBytes w n, b < 256 := by
  induction w generalizing n with
  | zero => simp [beBytes]
  | succ w ih =>
      intro b hb
      simp only [beBytes, List.mem_cons] at hb
      rcases hb with h | h
      · omega
      · exact ih _ b h

theorem beVal_append (xs ys : List Nat) :
    beVal (xs ++ ys) = (ys.foldl (fun acc b => acc * 256 + b) (beVal xs)) := by
  simp [beVal, List.foldl_append]

theorem beVal_beBytes {w n : Nat} (h : n < 256 ^ w) : beVal (beBytes w n) = n := by
  induction w generalizing n with
  | zero =>
      simp [beBytes, beVal]
      omega
  | succ w ih =>
      have hmod : n % 256 ^ w < 256 ^ w := Nat.mod_lt _ (Nat.pos_pow_of_pos w (by norm_num))
      have := ih hmod
      simp only [beBytes, beVal, List.foldl_cons] at *
      have hstep :
          (beBytes w (n % 256 ^ w)).foldl (fun acc b => acc * 256 + b) (0 * 256 + n / 256 ^ w % 256)
            = n / 256 ^ w % 256 * 256 ^ w + n % 256 ^ w := by
        have hshift : ∀ (bs : List Nat) (a : Nat),
            bs.foldl (fun acc b => acc * 256 + b) a
              = a * 256 ^ bs.length + bs.foldl (fun acc b => acc * 256 + b) 0 := by
          intro bs
          induction bs with
          | nil => intro a; simp
          | cons x rest ihr =>
              intro a
              simp only [List.foldl_cons, List.length_cons]
              rw [ihr (a * 256 + x), ihr (0 * 256 + x)]
              ring
        rw [hshift, beBytes_length, this]
        ring_nf
      rw [hstep]
      have hdivlt : n / 256 ^ w < 256 := by
        have : n < 256 ^ w * 256 := by
          calc n < 256 ^ (w + 1) := h
          _ = 256 ^ w * 256 := by ring
        exact Nat.div_lt_of_lt_mul this
      have : n / 256 ^ w % 256 = n / 256 ^ w := Nat.mod_eq_of_lt hdivlt
      rw [this, Nat.mul_comm]
      exact Nat.div_add_mod n (256 ^ w)

/-! ## Identity engine (`identity.ts`)

`IdentityManager._generateRPI(epoch)` is
`createHmac('sha256', masterKey).update(epoch.toString()).digest('hex').substring(0, 32)`,
and `getCurrentRPI()` calls it at epoch `Math.floor(Date.now() / epochMs)`.
HMAC-SHA256 itself is library code external to the repository, so it enters
as a function parameter `hmac : String → String → List Nat` from (key,
message) to the 32 MAC bytes. -/

/-- `_generateRPI` from `identity.ts`: hex digest of
`HMAC-SHA256(masterKey, epoch.toString())`, truncated to 32 characters. -/
def generateRPI (hmac : String → String → List Nat) (masterKey : String)
    (epoch : Nat) : String :=
  String.mk ((bytesToHex (hmac masterKey (toString epoch))).take 32)

/-- `getCurrentRPI` from `identity.ts`: `_generateRPI` at the epoch
`Math.floor(now / epochMs)`. -/
def getCurrentRPI (hmac : String → String → List Nat) (masterKey : String)
    (epochMs now : Nat) : String :=
  generateRPI hmac masterKey (now / epochMs)

/-- `getMetadataKey` from `identity.ts`:
hex digest of `HMAC-SHA256(masterKey, "meta:" ++ rpi)` truncated to 64 chars. -/
def getMetadataKey (hmac : String → String → List Nat) (masterKey : String)
    (rpi : String) : String :=
  String.mk ((bytesToHex (hmac masterKey ("meta:" ++ rpi))).take 64)

/-! ## Wire codec (`routes.ts` `serializeKeys`, `matcher.ts` `_parseBinaryResponse`)

A server row as produced by `KeyModel.find(...).lean()`: 16 `rpi` bytes, a
`createdAt` timestamp (`Date.getTime()`; on the wire it travels as a
big-endian float64, modelled by its 64-bit pattern), and an optional
metadata string modelled as its UTF-8 byte list. -/

structure KeyRow where
  rpi : List Nat
  createdAt : Nat
  metadata : Option (List Nat)
  deriving Repr, DecidableEq

/-- `k.metadata || ''` from `serializeKeys`: a missing metadata string and an
empty one both serialize as the empty byte payload. -/
def metaBytes (k : KeyRow) : List Nat := k.metadata.getD []

/-- The bytes one record contributes to the download batch: 16 RPI bytes,
8 big-endian timestamp bytes, a big-endian `u16` metadata length, then the
metadata bytes. -/
def recBytes (k : KeyRow) : List Nat :=
  k.rpi ++ beBytes 8 k.createdAt ++ beBytes 2 (metaBytes k).length ++ metaBytes k

/-- `serializeKeys` from the server routes: a `u32` count followed by each
record's bytes. (The source computes the exact size in a first pass and
fills a single allocation in a second; the byte sequence produced is this
concatenation.) -/
def serializeKeys (keys : List KeyRow) : List Nat :=
  beBytes 4 keys.length ++ keys.flatMap recBytes

/-- A decoded record as built by `_parseBinaryResponse`: the RPI rendered as
32 lowercase hex characters, the timestamp, and the metadata bytes when the
length field was positive. -/
structure ServerKey where
  rpi : String
  reportedAt : Nat
  metadata : Option (List Nat)
  deriving Repr, DecidableEq

/-- A bounds-checked read of `len` bytes at `off`; `.error` models the
`RangeError` a JavaScript typed-array view would raise on an out-of-range
access. `_parseBinaryResponse` guards every read, so it never hits it. -/
def readBytes (buf : List Nat) (off len : Nat) : Except String (List Nat) :=
  if off + len ≤ buf.length then .ok ((buf.drop off).take len)
  else .error "offset is outside the bounds"

/-- The record loop of `_parseBinaryResponse`. `fuel` is `count - i`: the
loop runs `count` times unless a bounds check breaks out first. -/
def parseRecords (buf : List Nat) : Nat → Nat → Except String (List ServerKey)
  | 0, _ => .ok []
  | fuel + 1, off =>
      -- "Bounds check: minimum key size is 16 (RPI) + 8 (timestamp) + 2 (metaLen)"
      if buf.length < off + 26 then .ok []
      else do
        let rpiBytes ← readBytes buf off 16
        let tsBytes ← readBytes buf (off + 16) 8
        let lenBytes ← readBytes buf (off + 24) 2
        let metaLen := beVal lenBytes
        if 0 < metaLen then
          if buf.length < off + 26 + metaLen then .ok []
          else do
            let metaBs ← readBytes buf (off + 26) metaLen
            let rest ← parseRecords buf fuel (off + 26 + metaLen)
            pure ({ rpi := String.mk (bytesToHex rpiBytes),
                    reportedAt := beVal tsBytes,
                    metadata := some metaBs } :: rest)
        else do
          let rest ← parseRecords buf fuel (off + 26)
          pure ({ rpi := String.mk (bytesToHex rpiBytes),
                  reportedAt := beVal tsBytes,
                  metadata := none } :: rest)

/-- `_parseBinaryResponse` from `matcher.ts`: read the `u32` count (empty
result if even that is missing), then the record loop starting at offset 4. -/
def parseBinaryResponse (buf : List Nat) : Except String (List ServerKey) :=
  if buf.length < 4 then .ok []
  else do
    let cntBytes ← readBytes buf 0 4
    parseRecords buf (beVal cntBytes) 4

/-- The decoded image of a well-formed row: RPI bytes become 32 lowercase hex
characters, the timestamp passes through, and a zero-length metadata payload
decodes as "no metadata". -/
def toServerKey (k : KeyRow) : ServerKey :=
  { rpi := String.mk (bytesToHex k.rpi)
    reportedAt := k.createdAt
    metadata := if (metaBytes k).length = 0 then none else some (metaBytes k) }

/-- Number of bytes a record occupies on the wire. -/
def recSize (k : KeyRow) : Nat := 26 + (metaBytes k).length

/-- How many leading records fit completely in `budget` bytes of record data. -/
def fitCount : List KeyRow → Nat → Nat
  | [], _ => 0
  | k :: ks, budget =>
      if recSize k ≤ budget then fitCount ks (budget - recSize k) + 1 else 0

/-- Well-formedness of a row as the server stores it: a 16-byte RPI, a
timestamp whose float64 pattern is 64 bits, and metadata within the schema's
10240-byte cap. -/
def wfRow (k : KeyRow) : Prop :=
  k.rpi.length = 16 ∧ (∀ b ∈ k.rpi, b < 256) ∧
    k.createdAt < 2 ^ 64 ∧ (metaBytes k).length ≤ 10240

instance (k : KeyRow) : Decidable (wfRow k) := by
  unfold wfRow
  exact inferInstance

theorem recBytes_length {k : KeyRow} (h : k.rpi.length = 16) :
    (recBytes k).length = recSize k := by
  simp [recBytes, recSize, beBytes_length, h]
  omega

theorem readBytes_append (pre D : List Nat) (j l : Nat) (h : j + l ≤ D.length) :
    readBytes (pre ++ D) (pre.length + j) l = .ok ((D.drop j).take l) := by
  have hcond : pre.length + j + l ≤ (pre ++ D).length := by
    simp only [List.length_append]; omega
  have hdrop : (pre ++ D).drop (pre.length + j) = D.drop j := by
    rw [List.drop_append_eq_append_drop]
    have : pre.drop (pre.length + j) = [] := List.drop_eq_nil_of_le (by omega)
    rw [this]
    simp
  rw [readBytes, if_pos hcond, hdrop]

theorem metaBytes_of_len_zero {k : KeyRow} (h : (metaBytes k).length = 0) :
    metaBytes k = [] := List.length_eq_zero.mp h

theorem exceptOkBind {α β ε : Type} (x : α) (f : α → Except ε β) :
    (Except.ok x >>= f) = f x := rfl

theorem take_len_append {α : Type} {A : List α} {n : Nat} (B : List α)
    (h : A.length = n) : (A ++ B).take n = A := by
  subst h; exact List.take_left A B

theorem drop_len_append {α : Type} {A : List α} {n : Nat} (B : List α)
    (h : A.length = n) : (A ++ B).drop n = B := by
  subst h; exact List.drop_left A B

/-- Core codec lemma: parsing any `b`-byte truncation of the record region
(appended after an arbitrary `pre` whose end is the start offset) yields
exactly the records that fit completely in the truncation. -/
theorem parseRecords_take (keys : List KeyRow) :
    ∀ (pre : List Nat) (b fuel : Nat), (∀ k ∈ keys, wfRow k) → keys.length ≤ fuel →
      parseRecords (pre ++ (keys.flatMap recBytes).take b) fuel pre.length
        = .ok ((keys.map toServerKey).take (fitCount keys b)) := by
  induction keys with
  | nil =>
      intro pre b fuel _ _
      cases fuel with
      | zero => simp [parseRecords, fitCount]
      | succ f =>
          simp only [List.flatMap_nil, List.take_nil, List.append_nil, parseRecords,
            List.map_nil, fitCount, List.take_nil]
          rw [if_pos (by omega)]
  | cons k ks ih =>
      intro pre b fuel hwf hfuel
      obtain ⟨hrpi, hbytes, hts, hmeta⟩ := hwf k (by simp)
      have hwfks : ∀ x ∈ ks, wfRow x := fun x hx => hwf x (by simp [hx])
      cases fuel with
      | zero => simp at hfuel
      | succ f =>
      have hfks : ks.length ≤ f := by simpa using hfuel
      have hrec : (recBytes k).length = 26 + (metaBytes k).length := by
        rw [recBytes_length hrpi]; rfl
      have hflat : recBytes k ++ ks.flatMap recBytes
          = k.rpi ++ (beBytes 8 k.createdAt ++ (beBytes 2 (metaBytes k).length ++
              (metaBytes k ++ ks.flatMap recBytes))) := by
        simp [recBytes, List.append_assoc]
      have hTlen : (recBytes k ++ ks.flatMap recBytes).length
          = 26 + (metaBytes k).length + (ks.flatMap recBytes).length := by
        simp [hrec]
      have hflatMap : (k :: ks).flatMap recBytes = recBytes k ++ ks.flatMap recBytes := by
        simp
      rw [hflatMap]
      have hDlen : ((recBytes k ++ ks.flatMap recBytes).take b).length
          = min b (26 + (metaBytes k).length + (ks.flatMap recBytes).length) := by
        simp [hTlen]
      -- segment views of the record region
      have ht16 : (recBytes k ++ ks.flatMap recBytes).drop 16
          = beBytes 8 k.createdAt ++ (beBytes 2 (metaBytes k).length ++
              (metaBytes k ++ ks.flatMap recBytes)) := by
        rw [hflat, ← hrpi, List.drop_left]
      have ht24 : (recBytes k ++ ks.flatMap recBytes).drop 24
          = beBytes 2 (metaBytes k).length ++ (metaBytes k ++ ks.flatMap recBytes) := by
        have h8 : (24 : Nat) = 16 + 8 := by norm_num
        rw [h8, ← List.drop_drop, ht16]
        exact drop_len_append _ (beBytes_length 8 k.createdAt)
      have ht26 : (recBytes k ++ ks.flatMap recBytes).drop 26
          = metaBytes k ++ ks.flatMap recBytes := by
        have h2 : (26 : Nat) = 24 + 2 := by norm_num
        rw [h2, ← List.drop_drop, ht24]
        exact drop_len_append _ (beBytes_length 2 (metaBytes k).length)
      -- a drop-then-take from the truncation agrees with the full region
      have hdropD : ∀ j l : Nat, j + l ≤ b →
          (((recBytes k ++ ks.flatMap recBytes).take b).drop j).take l
            = ((recBytes k ++ ks.flatMap recBytes).drop j).take l := by
        intro j l hjl
        rw [List.drop_take, List.take_take, min_eq_left (by omega)]
      rcases lt_or_ge b 26 with hb26 | hb26
      · -- truncation cuts into the fixed 26-byte part of the first record:
        -- the first bounds check breaks immediately
        have hcond : (pre ++ (recBytes k ++ ks.flatMap recBytes).take b).length
            < pre.length + 26 := by
          simp only [List.length_append, hDlen]
          omega
        simp only [parseRecords]
        rw [if_pos hcond, fitCount, if_neg (by simp [recSize]; omega), List.take_zero]
      · -- at least the fixed part of the first record is present: all three
        -- fixed-field reads succeed and return the original bytes
        have hr1 : readBytes (pre ++ (recBytes k ++ ks.flatMap recBytes).take b)
            pre.length 16 = .ok k.rpi := by
          have h := readBytes_append pre ((recBytes k ++ ks.flatMap recBytes).take b)
            0 16 (by omega)
          rw [Nat.add_zero] at h
          rw [h, List.drop_zero, List.take_take, min_eq_left (by omega), hflat,
            take_len_append _ hrpi]
        have hr2 : readBytes (pre ++ (recBytes k ++ ks.flatMap recBytes).take b)
            (pre.length + 16) 8 = .ok (beBytes 8 k.createdAt) := by
          rw [readBytes_append pre _ 16 8 (by omega), hdropD 16 8 (by omega), ht16,
            take_len_append _ (beBytes_length 8 k.createdAt)]
        have hr3 : readBytes (pre ++ (recBytes k ++ ks.flatMap recBytes).take b)
            (pre.length + 24) 2 = .ok (beBytes 2 (metaBytes k).length) := by
          rw [readBytes_append pre _ 24 2 (by omega), hdropD 24 2 (by omega), ht24,
            take_len_append _ (beBytes_length 2 (metaBytes k).length)]
        have hts64 : k.createdAt < 256 ^ 8 := by
          have : (256 : Nat) ^ 8 = 2 ^ 64 := by norm_num
          omega
        have hlen16 : (metaBytes k).length < 256 ^ 2 := by
          have : (256 : Nat) ^ 2 = 65536 := by norm_num
          omega
        have hcondfirst : ¬ ((pre ++ (recBytes k ++ ks.flatMap recBytes).take b).length
            < pre.length + 26) := by
          simp only [List.length_append, hDlen]
          omega
        simp only [parseRecords]
        rw [if_neg hcondfirst]
        simp only [hr1, hr2, hr3, beVal_beBytes hts64, beVal_beBytes hlen16,
          exceptOkBind]
        rcases lt_or_ge b (26 + (metaBytes k).length) with hbrec | hbrec
        · -- the metadata payload is cut: the inner bounds check breaks
          have hLpos : 0 < (metaBytes k).length := by omega
          rw [if_pos hLpos]
          have hcondmeta : (pre ++ (recBytes k ++ ks.flatMap recBytes).take b).length
              < pre.length + 26 + (metaBytes k).length := by
            simp only [List.length_append, hDlen]
            omega
          rw [if_pos hcondmeta, fitCount, if_neg (by simp [recSize]; omega),
            List.take_zero]
        · -- the whole first record is present
          have hsplit : pre ++ (recBytes k ++ ks.flatMap recBytes).take b
              = (pre ++ recBytes k) ++ (ks.flatMap recBytes).take
                  (b - (26 + (metaBytes k).length)) := by
            rw [List.take_append_eq_append_take,
              List.take_of_length_le (by omega), hrec, List.append_assoc]
          have hofflen : pre.length + 26 + (metaBytes k).length
              = (pre ++ recBytes k).length := by
            simp [hrec]
            omega
          have hfit : fitCount (k :: ks) b
              = fitCount ks (b - (26 + (metaBytes k).length)) + 1 := by
            rw [fitCount, if_pos (by simp [recSize]; omega)]
            rfl
          by_cases hL : (metaBytes k).length = 0
          · -- no metadata payload: the record is its 26 fixed bytes
            rw [if_neg (by omega)]
            have hrest := ih (pre ++ recBytes k) (b - (26 + (metaBytes k).length)) f
              hwfks hfks
            rw [hsplit]
            have hoff26 : pre.length + 26 = (pre ++ recBytes k).length := by
              simp [hrec, hL]
            rw [hoff26, hrest]
            simp only [exceptOkBind]
            rw [hfit, List.map_cons, List.take_succ_cons]
            have hhead : toServerKey k
                = { rpi := String.mk (bytesToHex k.rpi), reportedAt := k.createdAt,
                    metadata := none } := by
              simp [toServerKey, hL]
            rw [hhead]
            rfl
          · -- metadata payload present and fully contained
            rw [if_pos (by omega)]
            have hcondmeta : ¬ ((pre ++ (recBytes k ++ ks.flatMap recBytes).take b).length
                < pre.length + 26 + (metaBytes k).length) := by
              simp only [List.length_append, hDlen]
              omega
            rw [if_neg hcondmeta]
            have hr4 : readBytes (pre ++ (recBytes k ++ ks.flatMap recBytes).take b)
                (pre.length + 26) (metaBytes k).length = .ok (metaBytes k) := by
              rw [readBytes_append pre _ 26 (metaBytes k).length (by omega),
                hdropD 26 (metaBytes k).length (by omega), ht26,
                take_len_append _ rfl]
            rw [hr4]
            have hrest := ih (pre ++ recBytes k) (b - (26 + (metaBytes k).length)) f
              hwfks hfks
            rw [hsplit]
            have hoffL : pre.length + 26 + (metaBytes k).length
                = (pre ++ recBytes k).length := hofflen
            rw [hoffL, hrest]
            simp only [exceptOkBind]
            rw [hfit, List.map_cons, List.take_succ_cons]
            have hhead : toServerKey k
                = { rpi := String.mk (bytesToHex k.rpi), reportedAt := k.createdAt,
                    metadata := some (metaBytes k) } := by
              simp [toServerKey, hL]
            rw [hhead]
            rfl

theorem fitCount_zero (keys : List KeyRow) : fitCount keys 0 = 0 := by
  cases keys with
  | nil => rfl
  | cons k ks =>
      rw [fitCount, if_neg]
      simp [recSize]

theorem fitCount_full (keys : List KeyRow) (hwf : ∀ k ∈ keys, wfRow k) :
    fitCount keys (keys.flatMap recBytes).length = keys.length := by
  induction keys with
  | nil => rfl
  | cons k ks ih =>
      obtain ⟨hrpi, -, -, -⟩ := hwf k (by simp)
      have hwfks : ∀ x ∈ ks, wfRow x := fun x hx => hwf x (by simp [hx])
      have hrec : (recBytes k).length = recSize k := recBytes_length hrpi
      simp only [List.flatMap_cons, List.length_append, fitCount, hrec]
      rw [if_pos (by omega)]
      have hsub : recSize k + (ks.flatMap recBytes).length - recSize k
          = (ks.flatMap recBytes).length := by omega
      rw [hsub, ih hwfks]
      simp

theorem parse_header (keys : List KeyRow) (rest : List Nat) :
    readBytes (beBytes 4 keys.length ++ rest) 0 4 = .ok (beBytes 4 keys.length) := by
  have h := readBytes_append ([] : List Nat) (beBytes 4 keys.length ++ rest) 0 4
    (by simp [beBytes_length])
  simp only [List.nil_append, List.length_nil, Nat.add_zero] at h
  rw [h, List.drop_zero, take_len_append _ (beBytes_length 4 keys.length)]

/-- C5: binary codec round-trip. For every list of records (16-byte RPI,
float64 timestamp modelled by its 64-bit pattern, metadata of at most
10240 bytes), decoding the encoding recovers the whole list: the count and,
per record, the RPI bytes (decoded to their canonical 32-lowercase-hex
rendering), the timestamp, and the metadata bytes (a zero-length payload
decodes as absent metadata, exactly as the decoder's `metaLen > 0` test
builds it), with the u32 count, big-endian float64 and u16 metadata length
laid out as specified. -/
theorem serializeKeys_parse_roundtrip (keys : List KeyRow)
    (hwf : ∀ k ∈ keys, wfRow k) (hcnt : keys.length < 2 ^ 32) :
    parseBinaryResponse (serializeKeys keys) = .ok (keys.map toServerKey) := by
  have hdata := parseRecords_take keys (beBytes 4 keys.length)
    (keys.flatMap recBytes).length keys.length hwf (le_refl _)
  rw [List.take_length, beBytes_length, fitCount_full keys hwf,
    List.take_of_length_le (by simp)] at hdata
  have hlen : ¬ ((serializeKeys keys).length < 4) := by
    simp [serializeKeys, beBytes_length]
  rw [parseBinaryResponse, if_neg hlen]
  rw [serializeKeys, parse_header, exceptOkBind,
    beVal_beBytes (by norm_num at hcnt ⊢; omega), hdata]

/-- Concrete evaluation of the C5 round-trip at a two-record batch (one
record with a metadata payload, one without). -/
theorem serializeKeys_parse_roundtrip_witness :
    parseBinaryResponse (serializeKeys
      [⟨[0, 1, 2, 3, 4, 5, 6, 7, 8, 9, 10, 11, 12, 13, 14, 255], 1700000000000,
        some [104, 105]⟩,
       ⟨List.replicate 16 171, 42, none⟩])
      = .ok ([⟨[0, 1, 2, 3, 4, 5, 6, 7, 8, 9, 10, 11, 12, 13, 14, 255], 1700000000000,
        some [104, 105]⟩,
       ⟨List.replicate 16 171, 42, none⟩].map toServerKey) :=
  serializeKeys_parse_roundtrip _ (by decide) (by decide)

/-- C6: truncation safety of the decoder. Cutting the encoded buffer at any
byte position `n` still decodes without error (`.ok`, and inside the model
every byte access is bounds-checked, so nothing reads past the end) and
returns exactly the longest prefix of the record list whose records are
completely contained in the truncated buffer. -/
theorem parse_truncation_prefix (keys : List KeyRow) (n : Nat)
    (hwf : ∀ k ∈ keys, wfRow k) (hcnt : keys.length < 2 ^ 32) :
    parseBinaryResponse ((serializeKeys keys).take n)
      = .ok ((keys.map toServerKey).take (fitCount keys (n - 4))) := by
  rcases lt_or_ge n 4 with hn | hn
  · have hlen : ((serializeKeys keys).take n).length < 4 := by
      simp only [List.length_take]
      omega
    rw [parseBinaryResponse, if_pos hlen]
    have h0 : n - 4 = 0 := by omega
    rw [h0, fitCount_zero, List.take_zero]
  · have hsplit : (serializeKeys keys).take n
        = beBytes 4 keys.length ++ (keys.flatMap recBytes).take (n - 4) := by
      rw [serializeKeys, List.take_append_eq_append_take,
        List.take_of_length_le (by rw [beBytes_length]; omega), beBytes_length]
    rw [hsplit]
    have hlen : ¬ ((beBytes 4 keys.length
        ++ (keys.flatMap recBytes).take (n - 4)).length < 4) := by
      simp [beBytes_length]
    rw [parseBinaryResponse, if_neg hlen]
    have hdata := parseRecords_take keys (beBytes 4 keys.length) (n - 4)
      keys.length hwf (le_refl _)
    rw [beBytes_length] at hdata
    rw [parse_header, exceptOkBind,
      beVal_beBytes (by norm_num at hcnt ⊢; omega), hdata]

/-- Concrete evaluation of the C6 truncation theorem: the same two-record
batch cut at byte 45, inside the second record, decodes to exactly the
first record. -/
theorem parse_truncation_prefix_witness :
    parseBinaryResponse ((serializeKeys
      [⟨[0, 1, 2, 3, 4, 5, 6, 7, 8, 9, 10, 11, 12, 13, 14, 255], 1700000000000,
        some [104, 105]⟩,
       ⟨List.replicate 16 171, 42, none⟩]).take 45)
      = .ok (([⟨[0, 1, 2, 3, 4, 5, 6, 7, 8, 9, 10, 11, 12, 13, 14, 255], 1700000000000,
        some [104, 105]⟩,
       ⟨List.replicate 16 171, 42, none⟩].map toServerKey).take
        (fitCount [⟨[0, 1, 2, 3, 4, 5, 6, 7, 8, 9, 10, 11, 12, 13, 14, 255], 1700000000000,
        some [104, 105]⟩,
       ⟨List.replicate 16 171, 42, none⟩] (45 - 4))) :=
  parse_truncation_prefix _ 45 (by decide) (by decide)

/-- Lowercase hex digit characters, the alphabet of `toString(16)` output. -/
def isLowerHexDigit (c : Char) : Prop :=
  ('0' ≤ c ∧ c ≤ '9') ∨ ('a' ≤ c ∧ c ≤ 'f')

instance (c : Char) : Decidable (isLowerHexDigit c) := by
  unfold isLowerHexDigit
  exact inferInstance

theorem byteToHex_lower {b : Nat} (hb : b < 256) :
    ∀ c ∈ byteToHex b, isLowerHexDigit c := by
  interval_cases b <;> decide

theorem bytesToHex_length {bs : List Nat} (hb : ∀ b ∈ bs, b < 256) :
    (bytesToHex bs).length = 2 * bs.length := by
  induction bs with
  | nil => rfl
  | cons b rest ih =>
      have h1 := byteToHex_length (hb b (by simp))
      have h2 := ih (fun x hx => hb x (by simp [hx]))
      simp only [bytesToHex, List.flatMap_cons, List.length_append, List.length_cons]
      simp only [bytesToHex] at h2
      omega

/-- C2: RPI determinism. For any HMAC collaborator, master secret and epoch
number `E`, `getCurrentRPI` at every wall-clock instant inside epoch `E`
(that is, `E * epochMs ≤ now < (E+1) * epochMs`) equals the first 16 bytes
of `HMAC-SHA256(MS, utf8(E))` rendered as exactly 32 lowercase hex
characters — a pure function of the master secret and `E` alone. -/
theorem getCurrentRPI_deterministic (hmac : String → String → List Nat)
    (masterKey : String) (epochMs E now : Nat)
    (hpos : 0 < epochMs) (h1 : E * epochMs ≤ now) (h2 : now < (E + 1) * epochMs)
    (hlen : (hmac masterKey (toString E)).length = 32)
    (hbytes : ∀ b ∈ hmac masterKey (toString E), b < 256) :
    getCurrentRPI hmac masterKey epochMs now
        = String.mk (bytesToHex ((hmac masterKey (toString E)).take 16))
      ∧ (getCurrentRPI hmac masterKey epochMs now).length = 32
      ∧ ∀ c ∈ (getCurrentRPI hmac masterKey epochMs now).data, isLowerHexDigit c := by
  have hfloor : now / epochMs = E := by
    have hle : E ≤ now / epochMs := (Nat.le_div_iff_mul_le hpos).mpr h1
    have hlt : now / epochMs < E + 1 := Nat.div_lt_of_lt_mul (by
      calc now < (E + 1) * epochMs := h2
      _ = epochMs * (E + 1) := by ring)
    omega
  have hmain : getCurrentRPI hmac masterKey epochMs now
      = String.mk (bytesToHex ((hmac masterKey (toString E)).take 16)) := by
    rw [getCurrentRPI, hfloor, generateRPI]
    rw [show (32 : Nat) = 2 * 16 from rfl, bytesToHex_take hbytes 16]
  refine ⟨hmain, ?_, ?_⟩
  · rw [hmain]
    show (bytesToHex ((hmac masterKey (toString E)).take 16)).length = 32
    rw [bytesToHex_length (fun b hb => hbytes b (List.mem_of_mem_take hb)),
      List.length_take, hlen]
    norm_num
  · intro c hc
    rw [hmain] at hc
    have hc' : c ∈ bytesToHex ((hmac masterKey (toString E)).take 16) := hc
    simp only [bytesToHex, List.mem_flatMap] at hc'
    obtain ⟨b, hbmem, hcmem⟩ := hc'
    exact byteToHex_lower (hbytes b (List.mem_of_mem_take hbmem)) c hcmem

/-- Concrete instantiation of the C2 determinism theorem with a stand-in MAC
function, epoch length 1000 ms, epoch 7, time 7500 ms. -/
theorem getCurrentRPI_deterministic_witness :
    getCurrentRPI (fun _ _ => List.range 32) "ms" 1000 7500
        = String.mk (bytesToHex (((fun (_ _ : String) => List.range 32) "ms"
            (toString 7)).take 16))
      ∧ (getCurrentRPI (fun _ _ => List.range 32) "ms" 1000 7500).length = 32
      ∧ ∀ c ∈ (getCurrentRPI (fun _ _ => List.range 32) "ms" 1000 7500).data,
          isLowerHexDigit c :=
  getCurrentRPI_deterministic (fun _ _ => List.range 32) "ms" 1000 7 7500
    (by decide) (by decide) (by decide) (by decide) (by decide)

/-! ## QR transport (`transport.ts`) -/

structure ParsedQR where
  rpi : String
  timestamp : Int
  metadataKey : String
  deriving Repr, DecidableEq

/-- JavaScript whitespace for `parseInt`'s leading skip (the common subset). -/
def isJsSpace (c : Char) : Bool :=
  c = ' ' || c = '\t' || c = '\n' || c = '\r'

/-- Decimal value of a digit run. -/
def digitsVal (ds : List Char) : Nat :=
  ds.foldl (fun a c => a * 10 + (c.toNat - 48)) 0

/-- JavaScript `parseInt(s, 10)`: skip leading whitespace, take an optional
sign and then the maximal run of decimal digits; `NaN` (here `none`) when no
digit is found. -/
def jsParseInt (s : String) : Option Int :=
  let cs := s.data.dropWhile isJsSpace
  let signed : Int × List Char :=
    match cs with
    | '-' :: r => (-1, r)
    | '+' :: r => (1, r)
    | r => (1, r)
  let digits := signed.2.takeWhile Char.isDigit
  if digits.isEmpty then none
  else some (signed.1 * (digitsVal digits : Int))

/-- JavaScript `String.prototype.split` with a one-character separator
(`''.split(x)` is `['']`; separators at the ends produce empty fields). -/
def splitOnChar (sep : Char) : List Char → List (List Char)
  | [] => [[]]
  | c :: rest =>
      let r := splitOnChar sep rest
      if c = sep then [] :: r
      else
        match r with
        | [] => [[c]]
        | h :: t => (c :: h) :: t

/-- The field list `data.split(':')` as strings. -/
def qrFields (data : String) : List String :=
  (splitOnChar ':' data.data).map String.mk

/-- `formatQR` from `transport.ts`: `proto:v1:<rpi>:<minted-at>:<metadata-key>`. -/
def formatQR (rpi : String) (mintedAt : Nat) (metadataKey : String) : String :=
  "proto:v1:" ++ rpi ++ ":" ++ toString mintedAt ++ ":" ++ metadataKey

/-- `parseQR` from `transport.ts`: split on `:`, require exactly five fields
with the two leading literals, then require the fourth field to parse as an
integer. -/
def parseQR (data : String) : Option ParsedQR :=
  let p := qrFields data
  if p.length ≠ 5 || p.getD 0 "" ≠ "proto" || p.getD 1 "" ≠ "v1" then none
  else
    match jsParseInt (p.getD 3 "") with
    | none => none
    | some ts => some ⟨p.getD 2 "", ts, p.getD 4 ""⟩

/-- C10: `parseQR` accepts strictly fewer inputs than the five-field shape
rule: any input that splits into exactly five colon-separated fields with
the literals `proto` and `v1` in front but whose fourth field does not parse
as an integer (`parseInt` yields `NaN`) is rejected with `null`; a numeric
minted-at timestamp is an additional acceptance requirement. -/
theorem parseQR_rejects_nonnumeric_timestamp (s : String)
    (h5 : (qrFields s).length = 5)
    (hp0 : (qrFields s).getD 0 "" = "proto")
    (hp1 : (qrFields s).getD 1 "" = "v1")
    (hnan : jsParseInt ((qrFields s).getD 3 "") = none) :
    parseQR s = none := by
  rw [parseQR]
  simp only [h5, hp0, hp1, hnan]
  rfl

/-- Concrete separation point for C10: `proto:v1:aa:xx:bb` has the five-field
shape yet is rejected because `xx` is not numeric. -/
theorem parseQR_rejects_nonnumeric_timestamp_witness :
    (((qrFields "proto:v1:aa:xx:bb").length = 5)
      ∧ (qrFields "proto:v1:aa:xx:bb").getD 0 "" = "proto"
      ∧ (qrFields "proto:v1:aa:xx:bb").getD 1 "" = "v1"
      ∧ jsParseInt ((qrFields "proto:v1:aa:xx:bb").getD 3 "") = none)
    ∧ parseQR "proto:v1:aa:xx:bb" = none :=
  ⟨⟨by decide, by decide, by decide, by decide⟩,
    parseQR_rejects_nonnumeric_timestamp "proto:v1:aa:xx:bb"
      (by decide) (by decide) (by decide) (by decide)⟩

/-! ## Identity initialization (`identity.ts` `initialize`) and the master-key
format check (`db.ts`)

`initialize` reads the stored master key; a missing (or falsy, i.e. empty)
value makes it call the crypto library's `randomUUID()`, store the result and
keep it in memory. `randomUUID` is external; its RFC 4122 contract (a
36-character string with hyphens at positions 8, 13, 18 and 23) enters as a
hypothesis on the supplied value. -/

structure InitResult where
  masterKey : String
  written : Option String
  deriving Repr, DecidableEq

/-- `IdentityManager.initialize`: keep a stored key; otherwise generate via
`randomUUID()` (`fresh`), persist it, and keep it in memory. -/
def initializeIdentity (stored : Option String) (fresh : String) : InitResult :=
  let key := stored.getD ""
  if key = "" then ⟨fresh, some fresh⟩ else ⟨key, none⟩

/-- The master-key validation from `db.ts` (`/^[0-9a-f]+$/i`), applied to the
database password before the SQLCipher `PRAGMA key`. -/
def validMasterKeyHex (s : String) : Prop :=
  s.data ≠ [] ∧ ∀ c ∈ s.data,
    ('0' ≤ c ∧ c ≤ '9') ∨ ('a' ≤ c ∧ c ≤ 'f') ∨ ('A' ≤ c ∧ c ≤ 'F')

instance (s : String) : Decidable (validMasterKeyHex s) := by
  unfold validMasterKeyHex
  exact inferInstance

/-- RFC 4122 shape of a `randomUUID()` result. -/
def uuidShape (s : String) : Prop :=
  s.length = 36 ∧ s.data.getD 8 ' ' = '-' ∧ s.data.getD 13 ' ' = '-'
    ∧ s.data.getD 18 ' ' = '-' ∧ s.data.getD 23 ' ' = '-'

instance (s : String) : Decidable (uuidShape s) := by
  unfold uuidShape
  exact inferInstance

/-- C1: what first-time initialization actually stores. With empty key
storage, `initialize` keeps and persists the `randomUUID()` value verbatim: a
36-character hyphenated UUID, not a 64-character hex encoding of 32 random
bytes — and that value fails the `db.ts` master-key hex validation, so the
encrypted-database open that `create()` performs next rejects it
(`Invalid master key format`). This supports the code-bug finding against
the claim (the 0.2.5 changelog documents the intended
`randomBytes(32).toString('hex')`). -/
theorem initialize_first_run_stores_uuid (stored : Option String) (fresh : String)
    (hempty : stored = none ∨ stored = some "") (hu : uuidShape fresh) :
    (initializeIdentity stored fresh).masterKey = fresh
      ∧ (initializeIdentity stored fresh).written = some fresh
      ∧ fresh.length ≠ 64
      ∧ ¬ validMasterKeyHex fresh := by
  obtain ⟨hlen, h8, -, -, -⟩ := hu
  have hrun : initializeIdentity stored fresh = ⟨fresh, some fresh⟩ := by
    rcases hempty with h | h <;> simp [initializeIdentity, h]
  refine ⟨by rw [hrun], by rw [hrun], by omega, ?_⟩
  rintro ⟨-, hall⟩
  have hlt : 8 < fresh.data.length := by
    have : fresh.data.length = 36 := hlen
    omega
  have hmem : fresh.data.getD 8 ' ' ∈ fresh.data := by
    rw [List.getD_eq_getElem _ _ hlt]
    exact List.getElem_mem hlt
  have := hall _ hmem
  rw [h8] at this
  rcases this with ⟨h, -⟩ | ⟨h, -⟩ | ⟨h, -⟩ <;> exact absurd h (by decide)

/-- Concrete first-run evaluation for C1 with empty key storage and a sample
UUID. -/
theorem initialize_first_run_stores_uuid_witness :
    (initializeIdentity none "a1b2c3d4-e5f6-4a7b-8c9d-0e1f2a3b4c5d").masterKey
        = "a1b2c3d4-e5f6-4a7b-8c9d-0e1f2a3b4c5d"
      ∧ (initializeIdentity none "a1b2c3d4-e5f6-4a7b-8c9d-0e1f2a3b4c5d").written
        = some "a1b2c3d4-e5f6-4a7b-8c9d-0e1f2a3b4c5d"
      ∧ ("a1b2c3d4-e5f6-4a7b-8c9d-0e1f2a3b4c5d" : String).length ≠ 64
      ∧ ¬ validMasterKeyHex "a1b2c3d4-e5f6-4a7b-8c9d-0e1f2a3b4c5d" :=
  initialize_first_run_stores_uuid none _ (Or.inl rfl) (by decide)

/-! ## Report pipeline and metadata encryption (`index.ts` `report`, `_encrypt`)

Per the design notes, a metadata object is modelled by its serialized JSON
string. AES-256-GCM itself is an external library collaborator and enters as
a parameter `enc` from (plaintext, key) to the wire string. A JavaScript
async method either resolves or rejects; `Except` captures that, and the
emitted error-stream events are returned alongside. -/

inductive SdkError where
  | metadataTooLarge
  | network
  deriving Repr, DecidableEq

/-- `_encrypt` from `index.ts`: empty wire string for absent metadata;
`MetadataTooLarge` thrown when the serialized JSON exceeds
`MAX_METADATA_SIZE = 8 * 1024`; otherwise the cipher output. -/
def encryptMetadata (enc : String → String → String) (metadata : Option String)
    (keyHex : String) : Except SdkError String :=
  match metadata with
  | none => .ok ""
  | some jsonStr =>
      if jsonStr.length > 8 * 1024 then .error .metadataTooLarge
      else .ok (enc jsonStr keyHex)

/-- The `keys.map(rpi => ({rpi, encryptedMetadata: _encrypt(...)}))` loop in
`report`: a throw from `_encrypt` aborts the whole mapping. -/
def encryptAll (enc : String → String → String) (metadata : Option String)
    (mkKey : String → String) :
    List String → Except SdkError (List (String × String))
  | [] => .ok []
  | rpi :: rest => do
      let e ← encryptMetadata enc metadata (mkKey rpi)
      let tail ← encryptAll enc metadata mkKey rest
      .ok ((rpi, e) :: tail)

/-- The `catch` block of `report`: a throw is emitted on the error stream
and the method resolves `false`; a clean run resolves the fetch outcome. -/
def emitCatch (r : Except SdkError Bool) : Except SdkError Bool × List SdkError :=
  match r with
  | .error e => (.ok false, [e])
  | .ok b => (.ok b, [])

/-- `report` from `index.ts`: the whole body sits in one `try`; any throw
(oversized metadata included) is caught, emitted on the error stream, and
turned into a resolved `false`. On a clean run the result is the `fetch`
outcome (`res.ok`, or a caught network throw → emitted error and `false`).
The returned pair is (resolved/rejected outcome, emitted error events). -/
def reportCall (enc : String → String → String) (history : List String)
    (mkKey : String → String) (metadata : Option String)
    (net : Except SdkError Bool) : Except SdkError Bool × List SdkError :=
  emitCatch (do
    let _ ← encryptAll enc metadata mkKey history
    net)

/-- The serialized JSON of the C8 counterexample metadata: 8193 characters,
one over the 8 KiB cap. -/
def oversizedJson : String := String.mk (List.replicate 8193 'a')

/-- C8 counterexample: with metadata one byte over 8 KiB, `report()` does
not reject (throw); it resolves to `false` and routes `MetadataTooLarge` to
the error stream — the same propagation as a network failure, contradicting
the claim that oversized metadata propagates as a thrown exception/result
error from the `report()` call site. -/
theorem report_oversized_counterexample :
    reportCall (fun _ _ => "") ["aa"] (fun _ => "kk") (some oversizedJson) (.ok true)
        = (.ok false, [SdkError.metadataTooLarge])
      ∧ (reportCall (fun _ _ => "") ["aa"] (fun _ => "kk") (some oversizedJson)
          (.ok true)).1 ≠ .error SdkError.metadataTooLarge
      ∧ (reportCall (fun _ _ => "") ["aa"] (fun _ => "kk") (some oversizedJson)
          (.ok true)).1 ≠ .error SdkError.network := by
  have hlen : oversizedJson.length = 8193 := by
    rw [oversizedJson, String.length_mk, List.length_replicate]
  have henc : encryptMetadata (fun _ _ => "") (some oversizedJson) "kk"
      = .error .metadataTooLarge := by
    rw [encryptMetadata, if_pos (by omega)]
  have hencAll : encryptAll (fun _ _ => "") (some oversizedJson) (fun _ => "kk")
      ["aa"] = .error .metadataTooLarge := by
    rw [encryptAll, henc]
    rfl
  have hrun : reportCall (fun _ _ => "") ["aa"] (fun _ => "kk")
      (some oversizedJson) (.ok true) = (.ok false, [SdkError.metadataTooLarge]) := by
    rw [reportCall, hencAll]
    rfl
  exact ⟨hrun, by rw [hrun]; simp, by rw [hrun]; simp⟩

/-- C8 as amended: for every metadata object whose serialized JSON exceeds
8 KiB, `_encrypt` does fail with `MetadataTooLarge`; but `report()` catches
that throw, emits it on the error stream, and resolves to `false` — the same
boolean-and-error-stream propagation used for network failures, not a
thrown exception at the call site. -/
theorem report_oversized_emits_error (enc : String → String → String)
    (rpi0 : String) (hist : List String) (mkKey : String → String)
    (jsonStr : String) (net : Except SdkError Bool)
    (hbig : jsonStr.length > 8192) :
    (∀ k, encryptMetadata enc (some jsonStr) k = .error .metadataTooLarge)
      ∧ reportCall enc (rpi0 :: hist) mkKey (some jsonStr) net
          = (.ok false, [SdkError.metadataTooLarge]) := by
  have henc : ∀ k, encryptMetadata enc (some jsonStr) k
      = .error .metadataTooLarge := by
    intro k
    rw [encryptMetadata, if_pos (by omega)]
  have hencAll : encryptAll enc (some jsonStr) mkKey (rpi0 :: hist)
      = .error .metadataTooLarge := by
    rw [encryptAll, henc (mkKey rpi0)]
    rfl
  refine ⟨henc, ?_⟩
  rw [reportCall, hencAll]
  rfl

/-- Concrete instantiation of the amended C8 theorem at the 8193-character
metadata JSON. -/
theorem report_oversized_emits_error_witness :
    (∀ k, encryptMetadata (fun _ _ => "") (some oversizedJson) k
        = .error .metadataTooLarge)
      ∧ reportCall (fun _ _ => "") ("aa" :: []) (fun _ => "kk")
          (some oversizedJson) (.ok true)
          = (.ok false, [SdkError.metadataTooLarge]) :=
  report_oversized_emits_error (fun _ _ => "") "aa" [] (fun _ => "kk")
    oversizedJson (.ok true)
    (by rw [oversizedJson, String.length_mk, List.length_replicate]; omega)

/-! ## Server ingest (`routes.ts` `POST /v1/report`, `db.ts` schema)

The Mongo collection is a list of rows plus a fresh-`_id` counter. The
route converts each report's hex RPI to its 16 bytes
(`Buffer.from(item.rpi, 'hex')`) and performs
`updateOne(filter={rpi}, update={$setOnInsert: {rpi, metadata}}, upsert:true)`:
insert when no row carries those bytes, otherwise a no-op. -/

structure ServerRow where
  mid : Nat
  rpi : List Nat
  metadata : Option String
  createdAt : Nat
  deriving Repr, DecidableEq

structure ReportItem where
  rpi : String
  encryptedMetadata : String
  deriving Repr, DecidableEq

/-- Value of one hex digit character (`Buffer.from(…, 'hex')` accepts both
cases). -/
def hexCharVal (c : Char) : Nat :=
  if '0' ≤ c ∧ c ≤ '9' then c.toNat - 48
  else if 'a' ≤ c ∧ c ≤ 'f' then c.toNat - 87
  else if 'A' ≤ c ∧ c ≤ 'F' then c.toNat - 55
  else 0

/-- `Buffer.from(hex, 'hex')`: consecutive digit pairs become bytes. -/
def hexDecode : List Char → List Nat
  | a :: b :: rest => (16 * hexCharVal a + hexCharVal b) :: hexDecode rest
  | _ => []

/-- The request-schema constraints from `ReportSchema`
(`^[a-f0-9]{32}$`, metadata ≤ 10240 chars, ≤ 1500 entries). -/
def validReportItem (it : ReportItem) : Prop :=
  (it.rpi.length = 32 ∧ ∀ c ∈ it.rpi.data, isLowerHexDigit c)
    ∧ it.encryptedMetadata.length ≤ 10240

structure DropState where
  rows : List ServerRow
  nextId : Nat
  deriving Repr, DecidableEq

/-- `item.encryptedMetadata || null`: the empty string is stored as `null`. -/
def storedMeta (it : ReportItem) : Option String :=
  if it.encryptedMetadata = "" then none else some it.encryptedMetadata

/-- One `updateOne` upsert with `$setOnInsert`: a no-op when a row with the
same 16 RPI bytes exists, otherwise an insert of `{rpi, metadata}` with a
fresh `_id` and `createdAt := now`. -/
def applyReportOp (now : Nat) (st : DropState) (it : ReportItem) : DropState :=
  let rb := hexDecode it.rpi.data
  if st.rows.any (fun r => r.rpi == rb) then st
  else ⟨st.rows ++ [⟨st.nextId, rb, storedMeta it, now⟩], st.nextId + 1⟩

/-- The `bulkWrite` of one `POST /v1/report` body. -/
def postReport (now : Nat) (st : DropState) (reports : List ReportItem) : DropState :=
  reports.foldl (applyReportOp now) st

/-- A sequence of report requests, each with its arrival time. -/
def postBatches (st : DropState) (batches : List (Nat × List ReportItem)) : DropState :=
  batches.foldl (fun s b => postReport b.1 s b.2) st

/-- The server rows carrying the 16 bytes `rb`. -/
def rowsFor (st : DropState) (rb : List Nat) : List ServerRow :=
  st.rows.filter (fun r => r.rpi == rb)

/-- Does a report item target the byte representation `rb`? -/
def reportsRpi (rb : List Nat) (it : ReportItem) : Bool :=
  hexDecode it.rpi.data == rb

/-- All (time, item) pairs of a batch sequence, in submission order. -/
def batchPairs (batches : List (Nat × List ReportItem)) : List (Nat × ReportItem) :=
  batches.flatMap (fun b => b.2.map (fun it => (b.1, it)))

def foldPairs (pairs : List (Nat × ReportItem)) (st : DropState) : DropState :=
  pairs.foldl (fun s p => applyReportOp p.1 s p.2) st

theorem postBatches_eq_foldPairs (batches : List (Nat × List ReportItem))
    (st : DropState) : postBatches st batches = foldPairs (batchPairs batches) st := by
  induction batches generalizing st with
  | nil => rfl
  | cons b bs ih =>
      simp only [postBatches, List.foldl_cons, batchPairs, List.flatMap_cons,
        foldPairs, List.foldl_append, List.foldl_map]
      rw [← postBatches, ih]
      rfl

theorem rowsFor_applyOp_other (now : Nat) (st : DropState) (it : ReportItem)
    (rb : List Nat) (hne : reportsRpi rb it = false) :
    rowsFor (applyReportOp now st it) rb = rowsFor st rb := by
  have hbeq : (hexDecode it.rpi.data == rb) = false := hne
  rw [applyReportOp]
  by_cases hany : (st.rows.any (fun r => r.rpi == hexDecode it.rpi.data)) = true
  · rw [if_pos hany]
  · rw [if_neg hany]
    have hsing : List.filter (fun r => r.rpi == rb)
        [(⟨st.nextId, hexDecode it.rpi.data, storedMeta it, now⟩ : ServerRow)]
          = [] := by
      rw [List.filter_cons,
        if_neg (show ¬ ((hexDecode it.rpi.data == rb) = true) by
          rw [hbeq]; exact Bool.false_ne_true),
        List.filter_nil]
    show List.filter (fun r => r.rpi == rb) (st.rows ++
      [⟨st.nextId, hexDecode it.rpi.data, storedMeta it, now⟩]) = rowsFor st rb
    rw [List.filter_append, hsing, List.append_nil]
    rfl

theorem rowsFor_applyOp_nonempty (now : Nat) (st : DropState) (it : ReportItem)
    (rb : List Nat) (hne : rowsFor st rb ≠ []) :
    rowsFor (applyReportOp now st it) rb = rowsFor st rb := by
  by_cases hrep : reportsRpi rb it = true
  · have hrb : hexDecode it.rpi.data = rb := beq_iff_eq.mp hrep
    obtain ⟨x, hx⟩ := List.exists_mem_of_ne_nil _ hne
    have hx' : x ∈ st.rows.filter (fun r => r.rpi == rb) := hx
    obtain ⟨hxmem, hxbeq⟩ := List.mem_filter.mp hx'
    have hany : (st.rows.any (fun r => r.rpi == hexDecode it.rpi.data)) = true := by
      rw [hrb]
      exact List.any_eq_true.mpr ⟨x, hxmem, hxbeq⟩
    rw [applyReportOp]
    rw [if_pos hany]
  · exact rowsFor_applyOp_other now st it rb (Bool.eq_false_iff.mpr hrep)

theorem rowsFor_applyOp_insert (now : Nat) (st : DropState) (it : ReportItem)
    (rb : List Nat) (hrep : reportsRpi rb it = true) (hempty : rowsFor st rb = []) :
    rowsFor (applyReportOp now st it) rb
      = [⟨st.nextId, rb, storedMeta it, now⟩] := by
  have hrb : hexDecode it.rpi.data = rb := beq_iff_eq.mp hrep
  have hfilter : st.rows.filter (fun r => r.rpi == rb) = [] := hempty
  have hany : (st.rows.any (fun r => r.rpi == hexDecode it.rpi.data)) = false := by
    rw [hrb, List.any_eq_false]
    intro x hxmem hxbeq
    have : x ∈ st.rows.filter (fun r => r.rpi == rb) :=
      List.mem_filter.mpr ⟨hxmem, hxbeq⟩
    rw [hfilter] at this
    exact List.not_mem_nil x this
  have hsing : List.filter (fun r => r.rpi == rb)
      [(⟨st.nextId, rb, storedMeta it, now⟩ : ServerRow)]
        = [⟨st.nextId, rb, storedMeta it, now⟩] := by
    rw [List.filter_cons,
      if_pos (show ((rb == rb) = true) from beq_self_eq_true rb), List.filter_nil]
  rw [applyReportOp]
  rw [if_neg (by rw [hany]; exact Bool.false_ne_true), hrb]
  show List.filter (fun r => r.rpi == rb) (st.rows ++
    [⟨st.nextId, rb, storedMeta it, now⟩]) = [⟨st.nextId, rb, storedMeta it, now⟩]
  rw [List.filter_append, hfilter, List.nil_append, hsing]

theorem rowsFor_foldPairs_frozen (pairs : List (Nat × ReportItem))
    (st : DropState) (rb : List Nat) (x : ServerRow)
    (hx : rowsFor st rb = [x]) :
    rowsFor (foldPairs pairs st) rb = [x] := by
  induction pairs generalizing st with
  | nil => exact hx
  | cons p rest ih =>
      simp only [foldPairs, List.foldl_cons]
      rw [← foldPairs]
      exact ih _ (by rw [rowsFor_applyOp_nonempty _ _ _ _ (by rw [hx]; simp), hx])

theorem ingest_core (rb : List Nat) (pairs : List (Nat × ReportItem)) :
    ∀ (st : DropState) (p₀ : Nat × ReportItem),
      rowsFor st rb = [] →
      pairs.find? (fun p => reportsRpi rb p.2) = some p₀ →
      ∃ i, rowsFor (foldPairs pairs st) rb = [⟨i, rb, storedMeta p₀.2, p₀.1⟩] := by
  induction pairs with
  | nil =>
      intro st p₀ _ hfind
      simp at hfind
  | cons p rest ih =>
      intro st p₀ hempty hfind
      by_cases hrep : reportsRpi rb p.2 = true
      · have hstep : List.find? (fun q => reportsRpi rb q.2) (p :: rest)
            = some p := List.find?_cons_of_pos rest hrep
        rw [hstep] at hfind
        injection hfind with h
        subst h
        have hins := rowsFor_applyOp_insert p.1 st p.2 rb hrep hempty
        exact ⟨st.nextId, rowsFor_foldPairs_frozen rest _ rb _ hins⟩
      · have hstep : List.find? (fun q => reportsRpi rb q.2) (p :: rest)
            = List.find? (fun q => reportsRpi rb q.2) rest :=
          List.find?_cons_of_neg rest hrep
        rw [hstep] at hfind
        have hempty' : rowsFor (applyReportOp p.1 st p.2) rb = [] := by
          rw [rowsFor_applyOp_other p.1 st p.2 rb (Bool.eq_false_iff.mpr hrep)]
          exact hempty
        exact ih (applyReportOp p.1 st p.2) p₀ hempty' hfind

theorem pairwiseRpi_applyOp (now : Nat) (st : DropState) (it : ReportItem)
    (hinv : st.rows.Pairwise (fun a b => a.rpi ≠ b.rpi)) :
    (applyReportOp now st it).rows.Pairwise (fun a b => a.rpi ≠ b.rpi) := by
  rw [applyReportOp]
  by_cases hany : (st.rows.any (fun r => r.rpi == hexDecode it.rpi.data)) = true
  · rw [if_pos hany]
    exact hinv
  · rw [if_neg hany]
    show (st.rows ++ [⟨st.nextId, hexDecode it.rpi.data, storedMeta it, now⟩]
      : List ServerRow).Pairwise (fun a b => a.rpi ≠ b.rpi)
    rw [List.pairwise_append]
    refine ⟨hinv, List.pairwise_singleton _ _, ?_⟩
    intro a ha b hb
    have hall := List.any_eq_false.mp (Bool.eq_false_iff.mpr hany)
    rw [List.mem_singleton] at hb
    subst hb
    intro heq
    exact (hall a ha) (beq_iff_eq.mpr heq)

theorem pairwiseRpi_foldPairs (pairs : List (Nat × ReportItem)) :
    ∀ st : DropState, st.rows.Pairwise (fun a b => a.rpi ≠ b.rpi) →
      (foldPairs pairs st).rows.Pairwise (fun a b => a.rpi ≠ b.rpi) := by
  induction pairs with
  | nil => intro st h; exact h
  | cons p rest ih =>
      intro st h
      exact ih _ (pairwiseRpi_applyOp p.1 st p.2 h)

/-- C4: ingest idempotence. Posting the same RPI any number N ≥ 1 of times
(in one batch or across batches — the pairs of `batchPairs` in submission
order) onto a state with no row for those 16 bytes leaves exactly one server
row for that RPI, carrying the metadata and arrival time of the FIRST report
(`$setOnInsert` never overwrites), and the `rpi` column stays unique under
equality of the 16-byte representation. -/
theorem ingest_idempotent (st : DropState) (batches : List (Nat × List ReportItem))
    (rb : List Nat) (p₀ : Nat × ReportItem)
    (hinv : st.rows.Pairwise (fun a b => a.rpi ≠ b.rpi))
    (hempty : rowsFor st rb = [])
    (hfind : (batchPairs batches).find? (fun p => reportsRpi rb p.2) = some p₀) :
    (∃ i, rowsFor (postBatches st batches) rb = [⟨i, rb, storedMeta p₀.2, p₀.1⟩])
      ∧ (postBatches st batches).rows.Pairwise (fun a b => a.rpi ≠ b.rpi) := by
  rw [postBatches_eq_foldPairs]
  exact ⟨ingest_core rb (batchPairs batches) st p₀ hempty hfind,
    pairwiseRpi_foldPairs (batchPairs batches) st hinv⟩

/-- Concrete C4 instantiation: the same RPI hex reported three times across
two batches (twice in the first), from an empty store. -/
theorem ingest_idempotent_witness :
    (∃ i, rowsFor (postBatches ⟨[], 0⟩
        [(5, [⟨"00112233445566778899aabbccddeeff", "m1"⟩,
              ⟨"00112233445566778899aabbccddeeff", "m2"⟩]),
         (9, [⟨"00112233445566778899aabbccddeeff", ""⟩])])
        (hexDecode ("00112233445566778899aabbccddeeff" : String).data)
        = [⟨i, hexDecode ("00112233445566778899aabbccddeeff" : String).data,
            storedMeta ⟨"00112233445566778899aabbccddeeff", "m1"⟩, 5⟩])
      ∧ (postBatches (⟨[], 0⟩ : DropState)
          [(5, [⟨"00112233445566778899aabbccddeeff", "m1"⟩,
                ⟨"00112233445566778899aabbccddeeff", "m2"⟩]),
           (9, [⟨"00112233445566778899aabbccddeeff", ""⟩])]).rows.Pairwise
          (fun a b => a.rpi ≠ b.rpi) :=
  ingest_idempotent ⟨[], 0⟩ _ _ (5, ⟨"00112233445566778899aabbccddeeff", "m1"⟩)
    List.Pairwise.nil (by decide) (by decide)

/-! ## Server download pagination (`routes.ts` `GET /v1/download`)

The query is `createdAt ≥ since AND _id > cursor`, sorted ascending by
`_id`, limited to 20,000 rows; `x-vailix-next-cursor` carries the last row's
`_id` when the page is full, and is empty when exhausted. The client
(`matcher.ts` `_downloadAndProcessKeys`) repeats the same `since` and follows
the cursor until it is empty. `_id` values are modelled as `Nat` (Mongoose
casts the cursor string back to the id type). -/

/-- The `_id > cursor` half of the query (`true` when no cursor came). -/
def cpred (cursor : Option Nat) (r : ServerRow) : Bool :=
  match cursor with
  | none => true
  | some c => decide (c < r.mid)

/-- The Mongo find filter of the download route. -/
def downloadQuery (rows : List ServerRow) (since : Nat) (cursor : Option Nat) :
    List ServerRow :=
  rows.filter (fun r => decide (since ≤ r.createdAt) && cpred cursor r)

/-- One download page: sort the query ascending by `_id`, take 20,000; the
next cursor is the last row's `_id` when the page is full. -/
def downloadPage (rows : List ServerRow) (since : Nat) (cursor : Option Nat) :
    List ServerRow × Option Nat :=
  let sorted := (downloadQuery rows since cursor).insertionSort
    (fun a b => a.mid ≤ b.mid)
  let page := sorted.take 20000
  (page, if 20000 ≤ page.length then page.getLast?.map (fun r => r.mid) else none)

/-- The client's do/while pagination: request, then follow
`x-vailix-next-cursor` until it is empty, concatenating the pages. -/
def downloadAll (rows : List ServerRow) (since : Nat) :
    Nat → Option Nat → List ServerRow
  | 0, _ => []
  | fuel + 1, cursor =>
      match downloadPage rows since cursor with
      | (page, none) => page
      | (page, some c) => page ++ downloadAll rows since fuel (some c)

theorem mid_le_getLast : ∀ (A : List ServerRow),
    A.Pairwise (fun a b => a.mid < b.mid) →
    ∀ (h : A ≠ []) (a : ServerRow), a ∈ A → a.mid ≤ (A.getLast h).mid := by
  intro A
  induction A with
  | nil => intro _ h; exact absurd rfl h
  | cons x rest ih =>
      intro hp h a ha
      cases rest with
      | nil =>
          rw [List.mem_singleton] at ha
          subst ha
          exact le_refl _
      | cons y t =>
          have hne : (y :: t) ≠ [] := by simp
          rw [List.getLast_cons hne]
          rcases List.mem_cons.mp ha with rfl | hmem
          · have hlast : (y :: t).getLast hne ∈ y :: t := List.getLast_mem hne
            exact le_of_lt ((List.pairwise_cons.mp hp).1 _ hlast)
          · exact ih (List.pairwise_cons.mp hp).2 hne a hmem

theorem sorted_filter_gt_eq_drop (R : List ServerRow)
    (hR : R.Pairwise (fun a b => a.mid < b.mid)) (n : Nat) (hn : 0 < n)
    (hlen : n ≤ R.length) (hA : R.take n ≠ []) (c : Nat)
    (hc : ((R.take n).getLast hA).mid = c) :
    R.filter (fun r => decide (c < r.mid)) = R.drop n := by
  have hsplit : R.take n ++ R.drop n = R := List.take_append_drop n R
  have hTA : (R.take n).Pairwise (fun a b => a.mid < b.mid) :=
    hR.sublist (List.take_sublist n R)
  have hcross : ∀ a ∈ R.take n, ∀ b ∈ R.drop n, a.mid < b.mid := by
    have := List.pairwise_append.mp (hsplit ▸ hR)
    exact this.2.2
  conv_lhs => rw [← hsplit]
  rw [List.filter_append]
  have hfA : (R.take n).filter (fun r => decide (c < r.mid)) = [] := by
    rw [List.filter_eq_nil_iff]
    intro a ha
    have := mid_le_getLast (R.take n) hTA hA a ha
    simp only [decide_eq_true_eq]
    omega
  have hfB : (R.drop n).filter (fun r => decide (c < r.mid)) = R.drop n := by
    rw [List.filter_eq_self]
    intro b hb
    have hlastmem : (R.take n).getLast hA ∈ R.take n := List.getLast_mem hA
    simp only [decide_eq_true_eq]
    rw [← hc]
    exact hcross _ hlastmem b hb
  rw [hfA, hfB, List.nil_append]

theorem downloadQuery_cursor_ext (rows : List ServerRow) (since : Nat)
    (cursor : Option Nat) (c : Nat)
    (hc : ∀ prev, cursor = some prev → prev < c) :
    downloadQuery rows since (some c)
      = (downloadQuery rows since cursor).filter (fun r => decide (c < r.mid)) := by
  rw [downloadQuery, downloadQuery, List.filter_filter]
  apply List.filter_congr
  intro r _
  cases cursor with
  | none =>
      show (decide (since ≤ r.createdAt) && decide (c < r.mid))
        = (decide (c < r.mid) && (decide (since ≤ r.createdAt) && true))
      cases decide (since ≤ r.createdAt) <;> cases decide (c < r.mid) <;> rfl
  | some prev =>
      have hpc : prev < c := hc prev rfl
      show (decide (since ≤ r.createdAt) && decide (c < r.mid))
        = (decide (c < r.mid) && (decide (since ≤ r.createdAt) && decide (prev < r.mid)))
      by_cases hm : c < r.mid
      · have hp : prev < r.mid := lt_trans hpc hm
        simp [hm, hp, Bool.and_comm]
      · simp [hm]

theorem downloadAll_succ (rows : List ServerRow) (since f : Nat)
    (cursor : Option Nat) :
    downloadAll rows since (f + 1) cursor
      = (match downloadPage rows since cursor with
        | (page, none) => page
        | (page, some c) => page ++ downloadAll rows since f (some c)) := rfl

theorem downloadAll_eq_query (rows : List ServerRow) (since : Nat)
    (hrows : rows.Pairwise (fun a b => a.mid < b.mid)) :
    ∀ (fuel : Nat) (cursor : Option Nat),
      (downloadQuery rows since cursor).length + 1 ≤ fuel →
      downloadAll rows since fuel cursor = downloadQuery rows since cursor := by
  intro fuel
  induction fuel with
  | zero =>
      intro cursor h
      exact absurd h (by omega)
  | succ f ih =>
      intro cursor hfuel
      have hRsorted : (downloadQuery rows since cursor).Pairwise
          (fun a b => a.mid < b.mid) := hrows.sublist (List.filter_sublist _)
      have hsortid : (downloadQuery rows since cursor).insertionSort
          (fun a b => a.mid ≤ b.mid) = downloadQuery rows since cursor :=
        List.Sorted.insertionSort_eq (hRsorted.imp le_of_lt)
      by_cases hlong : 20000 ≤ (downloadQuery rows since cursor).length
      · -- a full page: follow the cursor and recurse
        have hplen : ((downloadQuery rows since cursor).take 20000).length
            = 20000 := List.length_take_of_le hlong
        have hne : (downloadQuery rows since cursor).take 20000 ≠ [] :=
          List.length_pos.mp (by rw [hplen]; norm_num)
        have hcursorlt : ∀ prev, cursor = some prev →
            prev < (((downloadQuery rows since cursor).take 20000).getLast hne).mid := by
          intro prev hprev
          subst hprev
          have hmem : ((downloadQuery rows since (some prev)).take 20000).getLast hne
              ∈ rows.filter
                (fun r => decide (since ≤ r.createdAt) && cpred (some prev) r) :=
            List.mem_of_mem_take (List.getLast_mem hne)
          obtain ⟨-, hpred⟩ := List.mem_filter.mp hmem
          exact of_decide_eq_true ((Bool.and_eq_true _ _).mp hpred).2
        have hdrop := sorted_filter_gt_eq_drop (downloadQuery rows since cursor)
          hRsorted 20000 (by norm_num) hlong hne
          (((downloadQuery rows since cursor).take 20000).getLast hne).mid rfl
        have hext := downloadQuery_cursor_ext rows since cursor
          (((downloadQuery rows since cursor).take 20000).getLast hne).mid hcursorlt
        have hnextq : downloadQuery rows since
            (some ((((downloadQuery rows since cursor).take 20000).getLast hne).mid))
              = (downloadQuery rows since cursor).drop 20000 := by
          rw [hext, hdrop]
        have hrec := ih
          (some ((((downloadQuery rows since cursor).take 20000).getLast hne).mid))
          (by rw [hnextq, List.length_drop]; omega)
        have hp : downloadPage rows since cursor
            = ((downloadQuery rows since cursor).take 20000,
              some ((((downloadQuery rows since cursor).take 20000).getLast hne).mid)) := by
          simp only [downloadPage, hsortid]
          rw [if_pos (by rw [hplen]), List.getLast?_eq_getLast _ hne]
          rfl
        rw [downloadAll_succ, hp]
        show (downloadQuery rows since cursor).take 20000
          ++ downloadAll rows since f
            (some ((((downloadQuery rows since cursor).take 20000).getLast hne).mid))
          = downloadQuery rows since cursor
        rw [hrec, hnextq, List.take_append_drop]
      · -- a short page ends the loop
        have hpage : (downloadQuery rows since cursor).take 20000
            = downloadQuery rows since cursor := List.take_of_length_le (by omega)
        have hp : downloadPage rows since cursor
            = (downloadQuery rows since cursor, none) := by
          simp only [downloadPage, hsortid, hpage]
          rw [if_neg (by omega)]
        rw [downloadAll_succ, hp]

/-- C7: download monotonicity. Against stored rows with strictly increasing
`_id` and no concurrent writes, the paginated download (same `since` each
request, following `x-vailix-next-cursor` until empty, each page the query
`created_at ≥ since AND _id > cursor` sorted ascending by `_id` and limited
to 20,000) enumerates exactly the rows with `created_at ≥ since`, each once
(the concatenation equals that filtered list); with `since = 0` it
enumerates every server row exactly once. -/
theorem download_enumerates (rows : List ServerRow) (since : Nat)
    (hrows : rows.Pairwise (fun a b => a.mid < b.mid)) :
    downloadAll rows since (rows.length + 1) none
        = rows.filter (fun r => decide (since ≤ r.createdAt))
      ∧ downloadAll rows 0 (rows.length + 1) none = rows := by
  have hq : ∀ s : Nat, downloadQuery rows s none
      = rows.filter (fun r => decide (s ≤ r.createdAt)) := by
    intro s
    rw [downloadQuery]
    apply List.filter_congr
    intro r _
    show (decide (s ≤ r.createdAt) && true) = decide (s ≤ r.createdAt)
    exact Bool.and_true _
  have hlen : ∀ s : Nat, (downloadQuery rows s none).length + 1 ≤ rows.length + 1 := by
    intro s
    have := List.length_filter_le
      (fun r => decide (s ≤ r.createdAt) && cpred none r) rows
    rw [downloadQuery]
    omega
  constructor
  · rw [downloadAll_eq_query rows since hrows _ none (hlen since), hq]
  · rw [downloadAll_eq_query rows 0 hrows _ none (hlen 0), hq]
    apply List.filter_eq_self.mpr
    intro a _
    simp

/-- Concrete C7 instantiation: three rows, `since` cutting off the first. -/
theorem download_enumerates_witness :
    downloadAll [⟨1, [0], none, 10⟩, ⟨2, [1], none, 20⟩, ⟨3, [2], none, 30⟩]
        15 4 none
        = [⟨1, [0], none, 10⟩, ⟨2, [1], none, 20⟩,
           ⟨3, [2], none, 30⟩].filter (fun r => decide (15 ≤ r.createdAt))
      ∧ downloadAll [⟨1, [0], none, 10⟩, ⟨2, [1], none, 20⟩, ⟨3, [2], none, 30⟩]
        0 4 none
        = [⟨1, [0], none, 10⟩, ⟨2, [1], none, 20⟩, ⟨3, [2], none, 30⟩] :=
  download_enumerates
    [⟨1, [0], none, 10⟩, ⟨2, [1], none, 20⟩, ⟨3, [2], none, 30⟩] 15 (by decide)

/-! ## Matcher (`matcher.ts` `fetchAndMatch`, `storage.ts` `getMatchingScans`)

The HTTP collaborator is an oracle: the k-th entry is what the k-th
`fetch` of the pass produces — a failure (thrown fetch or `!res.ok`), a good
page (body bytes plus the `x-vailix-next-cursor` header, `none` for empty),
or a page whose processing throws in the storage layer (`StoreIO`).
AES-GCM decryption enters as the parameter `decrypt`; the persisted sync
checkpoint (`AsyncStorage` under `vailix_last_sync`) is a `Nat`. -/

instance {ε α : Type} [DecidableEq ε] [DecidableEq α] : DecidableEq (Except ε α) :=
  fun x y =>
  match x, y with
  | .error a, .error b =>
      if h : a = b then isTrue (by rw [h])
      else isFalse (fun hc => h (Except.error.inj hc))
  | .error _, .ok _ => isFalse (fun hc => Except.noConfusion hc)
  | .ok _, .error _ => isFalse (fun hc => Except.noConfusion hc)
  | .ok a, .ok b =>
      if h : a = b then isTrue (by rw [h])
      else isFalse (fun hc => h (Except.ok.inj hc))

structure ScanRow where
  rpi : String
  metadataKey : String
  timestamp : Nat
  deriving Repr, DecidableEq

structure MatchRec where
  rpi : String
  timestamp : Nat
  metadata : Option (List Nat)
  reportedAt : Nat
  deriving Repr, DecidableEq

/-- `getMatchingScans` from `storage.ts`: the IN-query batched into chunks of
at most 500 identifiers; the result is the concatenation of the batches. -/
def getMatchingScansAux (db : List ScanRow) : Nat → List String → List ScanRow
  | 0, _ => []
  | fuel + 1, rpiList =>
      if rpiList = [] then []
      else
        db.filter (fun s => (rpiList.take 500).contains s.rpi)
          ++ getMatchingScansAux db fuel (rpiList.drop 500)

def getMatchingScans (db : List ScanRow) (rpiList : List String) : List ScanRow :=
  if rpiList.length = 0 then [] else getMatchingScansAux db rpiList.length rpiList

inductive FetchStep where
  | fail
  | page (buffer : List Nat) (next : Option String)
  | pageProcFail (buffer : List Nat) (next : Option String)
  deriving Repr, DecidableEq

/-- The page-processor callback inside `fetchAndMatch`: update the running
`maxReportedAt`, build the per-page RPI map (last entry wins, like
`Map.set`), query matching scans, decrypt each hit, append the matches. -/
def processPage (decrypt : Option (List Nat) → String → Option (List Nat))
    (db : List ScanRow) (keys : List ServerKey) (acc : Nat × List MatchRec) :
    Nat × List MatchRec :=
  if keys = [] then acc
  else
    let pageMax := (keys.map (fun k => k.reportedAt)).foldl Nat.max 0
    let maxRep := Nat.max acc.1 pageMax
    let matching := getMatchingScans db (keys.map (fun k => k.rpi)).dedup
    let ms := matching.map (fun s =>
      let sk := (keys.reverse.find? (fun k => k.rpi == s.rpi)).getD ⟨s.rpi, 0, none⟩
      MatchRec.mk s.rpi s.timestamp (decrypt sk.metadata s.metadataKey) sk.reportedAt)
    (maxRep, acc.2 ++ ms)

/-- The download/process loop of `_downloadAndProcessKeys` driven by the
oracle: a request is made, its page parsed and processed, and the loop
repeats while the cursor header is non-empty. `.error ()` is the exception
propagating out of the loop into `fetchAndMatch`'s `catch`. -/
def runPages (decrypt : Option (List Nat) → String → Option (List Nat))
    (db : List ScanRow) :
    List FetchStep → Nat × List MatchRec → Except Unit (Nat × List MatchRec)
  | [], _ => .error ()
  | step :: rest, acc =>
      match step with
      | .fail => .error ()
      | .pageProcFail _ _ => .error ()
      | .page buffer next =>
          match parseBinaryResponse buffer with
          | .error _ => .error ()
          | .ok keys =>
              match next with
              | none => .ok (processPage decrypt db keys acc)
              | some _ => runPages decrypt db rest (processPage decrypt db keys acc)

/-- The tail of `fetchAndMatch`: on a throw anywhere in the pass, emit the
error and return an empty match list without touching the checkpoint; on
success, persist the max `reported_at` seen (only when it advanced), and
return the matches. Result: (persisted checkpoint, returned matches,
emitted errors). -/
def finishRun (st0 : Nat) :
    Except Unit (Nat × List MatchRec) → Nat × List MatchRec × List Unit
  | .error e => (st0, [], [e])
  | .ok acc => (if st0 < acc.1 then acc.1 else st0, acc.2, [])

/-- `fetchAndMatch` from `matcher.ts`. -/
def fetchAndMatch (decrypt : Option (List Nat) → String → Option (List Nat))
    (db : List ScanRow) (st0 : Nat) (responses : List FetchStep) :
    Nat × List MatchRec × List Unit :=
  finishRun st0 (runPages decrypt db responses (st0, []))

/-- C3: checkpoint safety. If any fetch of the pass fails (HTTP error,
non-2xx status, or an exception while processing a page), `fetchAndMatch`
leaves the persisted sync checkpoint exactly as it was before the call,
emits the error on the error stream, and returns an empty match list; and
the checkpoint is written only after every page has completed successfully
(on a clean pass it becomes the maximum `reported_at` seen, kept unchanged
when nothing advanced it). -/
theorem fetchAndMatch_checkpoint_safety
    (decrypt : Option (List Nat) → String → Option (List Nat))
    (db : List ScanRow) (st0 : Nat) (responses : List FetchStep) :
    (∀ e, runPages decrypt db responses (st0, []) = .error e →
      fetchAndMatch decrypt db st0 responses = (st0, [], [e]))
    ∧ (∀ mx ms, runPages decrypt db responses (st0, []) = .ok (mx, ms) →
      fetchAndMatch decrypt db st0 responses
        = (if st0 < mx then mx else st0, ms, [])) := by
  constructor
  · intro e h
    rw [fetchAndMatch, h]
    rfl
  · intro mx ms h
    rw [fetchAndMatch, h]
    rfl

/-- Concrete C3 instantiation: a pass whose first page is fine (and points
at a next cursor) but whose second fetch fails leaves checkpoint 7 alone,
returns no matches and emits the error; a clean one-page pass carrying
`reported_at = 9` advances the checkpoint to 9. -/
theorem fetchAndMatch_checkpoint_safety_witness :
    fetchAndMatch (fun m _ => m) [] 7
        [FetchStep.page [0, 0, 0, 0] (some "c"), FetchStep.fail]
        = (7, [], [()])
      ∧ fetchAndMatch (fun m _ => m) [] 7
        [FetchStep.page (serializeKeys [⟨List.replicate 16 1, 9, none⟩]) none]
        = (9, [], []) :=
  ⟨(fetchAndMatch_checkpoint_safety (fun m _ => m) [] 7
      [FetchStep.page [0, 0, 0, 0] (some "c"), FetchStep.fail]).1 () (by decide),
   (fetchAndMatch_checkpoint_safety (fun m _ => m) [] 7
      [FetchStep.page (serializeKeys [⟨List.replicate 16 1, 9, none⟩]) none]).2
      9 [] (by decide)⟩

/-! ## SDK lifecycle singleton (`index.ts` `VailixSDK.create`)

The cooperative (event-loop) model of `create()`: a caller's prologue — the
`instance` check, the `initPromise` check, and the synchronous setting of
`initPromise` before any `await` — is one atomic step (`enter`); the
heavyweight `doCreate` body (key-storage read, `initializeDatabase`, ledger
load, cleanup) runs between suspension points and settles its promise with
`finishOk` (which also sets `instance`) or `finishFail` (which clears the
`initPromise` slot so a retry can start). `started` counts launches of the
heavyweight initialization; `got` records each caller's settled outcome. -/

structure SdkState where
  inst : Option Nat
  slot : Option Nat
  running : List Nat
  started : Nat
  waiters : List (Nat × Nat)
  got : List (Nat × Except Unit Nat)
  entered : List Nat
  fresh : Nat
  deriving Repr, DecidableEq

inductive SdkAction where
  | enter (c : Nat)
  | finishOk (p : Nat)
  | finishFail (p : Nat)
  deriving Repr, DecidableEq

def sdkInit : SdkState := ⟨none, none, [], 0, [], [], [], 0⟩

/-- One scheduler step. `none` marks an action that cannot occur (a caller
entering twice, or settling a promise that is not in flight). -/
def sdkStep (s : SdkState) (a : SdkAction) : Option SdkState :=
  match a with
  | .enter c =>
      if s.entered.contains c then none
      else
        match s.inst with
        | some e =>
            some { s with
              entered := c :: s.entered
              got := (c, .ok e) :: s.got }
        | none =>
            match s.slot with
            | some p =>
                some { s with
                  entered := c :: s.entered
                  waiters := (c, p) :: s.waiters }
            | none =>
                some { s with
                  entered := c :: s.entered
                  slot := some s.fresh
                  running := [s.fresh]
                  started := s.started + 1
                  waiters := (c, s.fresh) :: s.waiters
                  fresh := s.fresh + 1 }
  | .finishOk p =>
      if s.running.contains p then
        some { s with
          inst := some s.fresh
          running := s.running.erase p
          waiters := s.waiters.filter (fun w => w.2 ≠ p)
          got := (s.waiters.filter (fun w => w.2 = p)).map
            (fun w => (w.1, Except.ok s.fresh)) ++ s.got
          fresh := s.fresh + 1 }
      else none
  | .finishFail p =>
      if s.running.contains p then
        some { s with
          slot := none
          running := s.running.erase p
          waiters := s.waiters.filter (fun w => w.2 ≠ p)
          got := (s.waiters.filter (fun w => w.2 = p)).map
            (fun w => (w.1, Except.error ())) ++ s.got }
      else none

def sdkRunFrom (s : SdkState) : List SdkAction → Option SdkState
  | [] => some s
  | a :: rest =>
      match sdkStep s a with
      | none => none
      | some next => sdkRunFrom next rest

/-- All interleavings of `create()` calls and initialization completions,
from the pristine module state. -/
def sdkRun (acts : List SdkAction) : Option SdkState := sdkRunFrom sdkInit acts

/-- The inductive invariant of the singleton: at most one initialization in
flight and only under an occupied slot; a published instance means nothing
is in flight; an occupied slot means the heavyweight init has been launched;
every successful outcome carries the currently published instance. -/
def SdkInv (s : SdkState) : Prop :=
  (s.running = [] ∨ ∃ p, s.running = [p] ∧ s.slot = some p)
    ∧ (∀ e, s.inst = some e → s.running = [])
    ∧ (∀ p, s.slot = some p → 1 ≤ s.started)
    ∧ (∀ c e, (c, Except.ok e) ∈ s.got → s.inst = some e)
    ∧ (∀ e, s.inst = some e → 1 ≤ s.started)

/-- The extra invariant of failure-free runs: the heavyweight init has run
at most once, only an occupied slot accounts for it, and any entered caller
forces it to have run. -/
def SdkNoFailInv (s : SdkState) : Prop :=
  s.started ≤ 1 ∧ (s.slot = none → s.started = 0)
    ∧ (s.entered ≠ [] → 1 ≤ s.started)

theorem sdkStep_inv {s s' : SdkState} {a : SdkAction} (hinv : SdkInv s)
    (hstep : sdkStep s a = some s') : SdkInv s' := by
  obtain ⟨hI1, hJ5, hJ7, hJ3, hJ8⟩ := hinv
  cases a with
  | enter c =>
      rw [sdkStep] at hstep
      split at hstep
      · exact Option.noConfusion hstep
      · split at hstep
        next e hinst =>
          injection hstep with hs'
          subst hs'
          refine ⟨hI1, hJ5, hJ7, ?_, hJ8⟩
          intro c' e' hmem
          rcases List.mem_cons.mp hmem with heq | hold
          · have h2 : (Except.ok e' : Except Unit Nat) = Except.ok e :=
              congrArg Prod.snd heq
            have he : e' = e := Except.ok.inj h2
            show s.inst = some e'
            rw [he]
            exact hinst
          · exact hJ3 c' e' hold
        next hinst =>
          split at hstep
          next q hslot =>
            injection hstep with hs'
            subst hs'
            exact ⟨hI1, hJ5, hJ7, hJ3, hJ8⟩
          next hslot =>
            injection hstep with hs'
            subst hs'
            refine ⟨Or.inr ⟨s.fresh, rfl, rfl⟩, ?_, ?_, ?_, ?_⟩
            · intro e h
              have h' : s.inst = some e := h
              rw [hinst] at h'
              exact Option.noConfusion h'
            · intro q _
              show 1 ≤ s.started + 1
              omega
            · intro c' e' hmem
              exact hJ3 c' e' hmem
            · intro e h
              have h' : s.inst = some e := h
              rw [hinst] at h'
              exact Option.noConfusion h'
  | finishOk p =>
      rw [sdkStep] at hstep
      split at hstep
      next hcont =>
        injection hstep with hs'
        subst hs'
        have hpmem : p ∈ s.running := by simpa using hcont
        rcases hI1 with hnil | ⟨q, hq, hslot⟩
        · rw [hnil] at hpmem
          exact absurd hpmem (List.not_mem_nil p)
        · have hpq : p = q := by
            rw [hq] at hpmem
            simpa using hpmem
          have herase : s.running.erase p = [] := by
            rw [hq, hpq]
            exact List.erase_cons_head q []
          refine ⟨Or.inl herase, fun e _ => herase, ?_, ?_, ?_⟩
          · intro r hr
            exact hJ7 r hr
          · intro c' e' hmem
            rcases List.mem_append.mp hmem with hnew | hold
            · obtain ⟨w, hw, heqw⟩ := List.mem_map.mp hnew
              have h2 : (Except.ok s.fresh : Except Unit Nat) = Except.ok e' :=
                congrArg Prod.snd heqw
              have : s.fresh = e' := Except.ok.inj h2
              show some s.fresh = some e'
              rw [this]
            · have hi := hJ3 c' e' hold
              have hrun0 := hJ5 e' hi
              rw [hq] at hrun0
              exact List.noConfusion hrun0
          · intro e _
            show 1 ≤ s.started
            exact hJ7 q hslot
      next hcont =>
        exact Option.noConfusion hstep
  | finishFail p =>
      rw [sdkStep] at hstep
      split at hstep
      next hcont =>
        injection hstep with hs'
        subst hs'
        have hpmem : p ∈ s.running := by simpa using hcont
        rcases hI1 with hnil | ⟨q, hq, hslot⟩
        · rw [hnil] at hpmem
          exact absurd hpmem (List.not_mem_nil p)
        · have herase : s.running.erase p = [] := by
            have hpq : p = q := by
              rw [hq] at hpmem
              simpa using hpmem
            rw [hq, hpq]
            exact List.erase_cons_head q []
          refine ⟨Or.inl herase, fun e _ => herase, ?_, ?_, ?_⟩
          · intro r hr
            exact Option.noConfusion (hr : (none : Option Nat) = some r)
          · intro c' e' hmem
            rcases List.mem_append.mp hmem with hnew | hold
            · obtain ⟨w, hw, heqw⟩ := List.mem_map.mp hnew
              have h2 : (Except.error () : Except Unit Nat) = Except.ok e' :=
                congrArg Prod.snd heqw
              exact Except.noConfusion h2
            · exact hJ3 c' e' hold
          · intro e h
            exact hJ8 e h
      next hcont =>
        exact Option.noConfusion hstep

theorem sdkStep_nofail {s s' : SdkState} {a : SdkAction} (hinv : SdkInv s)
    (hnf : SdkNoFailInv s) (hstep : sdkStep s a = some s')
    (hok : ∀ p, a ≠ .finishFail p) : SdkNoFailInv s' := by
  obtain ⟨hI1, hJ5, hJ7, hJ3, hJ8⟩ := hinv
  obtain ⟨hN1, hN2, hN3⟩ := hnf
  cases a with
  | enter c =>
      rw [sdkStep] at hstep
      split at hstep
      · exact Option.noConfusion hstep
      · split at hstep
        next e hinst =>
          injection hstep with hs'
          subst hs'
          exact ⟨hN1, hN2, fun _ => hJ8 e hinst⟩
        next hinst =>
          split at hstep
          next q hslot =>
            injection hstep with hs'
            subst hs'
            exact ⟨hN1, hN2, fun _ => hJ7 q hslot⟩
          next hslot =>
            injection hstep with hs'
            subst hs'
            have h0 : s.started = 0 := hN2 hslot
            refine ⟨?_, ?_, ?_⟩
            · show s.started + 1 ≤ 1
              omega
            · intro h
              exact Option.noConfusion (h : (some s.fresh : Option Nat) = none)
            · intro _
              show 1 ≤ s.started + 1
              omega
  | finishOk p =>
      rw [sdkStep] at hstep
      split at hstep
      next hcont =>
        injection hstep with hs'
        subst hs'
        have hpmem : p ∈ s.running := by simpa using hcont
        rcases hI1 with hnil | ⟨q, hq, hslot⟩
        · rw [hnil] at hpmem
          exact absurd hpmem (List.not_mem_nil p)
        · refine ⟨hN1, ?_, hN3⟩
          intro h
          have h' : s.slot = none := h
          rw [hslot] at h'
          exact Option.noConfusion h'
      next =>
        exact Option.noConfusion hstep
  | finishFail p =>
      exact absurd rfl (hok p)

theorem sdkRunFrom_inv : ∀ (acts : List SdkAction) (s s' : SdkState),
    SdkInv s → sdkRunFrom s acts = some s' → SdkInv s' := by
  intro acts
  induction acts with
  | nil =>
      intro s s' hinv hrun
      injection hrun with h
      subst h
      exact hinv
  | cons a rest ih =>
      intro s s' hinv hrun
      rw [sdkRunFrom] at hrun
      cases hstep : sdkStep s a with
      | none =>
          rw [hstep] at hrun
          exact Option.noConfusion hrun
      | some s1 =>
          rw [hstep] at hrun
          exact ih s1 s' (sdkStep_inv hinv hstep) hrun

theorem sdkRunFrom_nofail : ∀ (acts : List SdkAction) (s s' : SdkState),
    SdkInv s → SdkNoFailInv s →
    (∀ a ∈ acts, ∀ p, a ≠ SdkAction.finishFail p) →
    sdkRunFrom s acts = some s' → SdkNoFailInv s' := by
  intro acts
  induction acts with
  | nil =>
      intro s s' _ hnf _ hrun
      injection hrun with h
      subst h
      exact hnf
  | cons a rest ih =>
      intro s s' hinv hnf hall hrun
      rw [sdkRunFrom] at hrun
      cases hstep : sdkStep s a with
      | none =>
          rw [hstep] at hrun
          exact Option.noConfusion hrun
      | some s1 =>
          rw [hstep] at hrun
          exact ih s1 s' (sdkStep_inv hinv hstep)
            (sdkStep_nofail hinv hnf hstep (hall a (by simp)))
            (fun b hb => hall b (by simp [hb])) hrun

theorem sdkInit_inv : SdkInv sdkInit :=
  ⟨Or.inl rfl, fun _ h => Option.noConfusion h, fun _ h => Option.noConfusion h,
    fun _ _ h => absurd h (List.not_mem_nil _), fun _ h => Option.noConfusion h⟩

theorem sdkInit_nofail : SdkNoFailInv sdkInit :=
  ⟨by decide, fun _ => rfl, fun h => absurd rfl h⟩

/-- C9: singleton atomicity. Along every valid interleaving of concurrent
`create()` calls in the cooperative model: (1) there is never a state with
two in-flight initializations; (2) in failure-free runs the heavyweight
one-time initialization (the `doCreate` body, `initializeDatabase` included)
is launched exactly once as soon as any caller has entered, and at most
once overall; (3) every caller that receives an engine receives the same
engine instance; and (4) when an initialization fails, the
initializing-promise slot clears, and a subsequent `create()` by a fresh
caller launches a new initialization (retry works). -/
theorem create_singleton (acts : List SdkAction) (s : SdkState)
    (hrun : sdkRun acts = some s) :
    s.running.length ≤ 1
      ∧ ((∀ a ∈ acts, ∀ p, a ≠ SdkAction.finishFail p) →
          s.started ≤ 1 ∧ (s.entered ≠ [] → s.started = 1))
      ∧ (∀ c1 c2 e1 e2, (c1, Except.ok e1) ∈ s.got →
          (c2, Except.ok e2) ∈ s.got → e1 = e2)
      ∧ (∀ p s', sdkStep s (.finishFail p) = some s' →
          s'.slot = none
            ∧ ∀ c s'', sdkStep s' (.enter c) = some s'' →
                s''.started = s'.started + 1 ∧ s''.running.length = 1) := by
  have hinv : SdkInv s := sdkRunFrom_inv acts sdkInit s sdkInit_inv hrun
  obtain ⟨hI1, hJ5, hJ7, hJ3, hJ8⟩ := hinv
  refine ⟨?_, ?_, ?_, ?_⟩
  · rcases hI1 with h | ⟨p, hp, -⟩
    · rw [h]
      exact Nat.zero_le 1
    · rw [hp]
      exact le_refl 1
  · intro hall
    have hnf := sdkRunFrom_nofail acts sdkInit s sdkInit_inv sdkInit_nofail hall hrun
    obtain ⟨hN1, -, hN3⟩ := hnf
    exact ⟨hN1, fun h => le_antisymm hN1 (hN3 h)⟩
  · intro c1 c2 e1 e2 h1 h2
    have hi1 := hJ3 c1 e1 h1
    have hi2 := hJ3 c2 e2 h2
    exact Option.some.inj (hi1.symm.trans hi2)
  · intro p s' hstep'
    rw [sdkStep] at hstep'
    split at hstep'
    next hcont =>
      injection hstep' with hs'
      subst hs'
      have hpmem : p ∈ s.running := by simpa using hcont
      have hinstnone : s.inst = none := by
        cases hi : s.inst with
        | none => rfl
        | some e =>
            have := hJ5 e hi
            rw [this] at hpmem
            exact absurd hpmem (List.not_mem_nil p)
      refine ⟨rfl, ?_⟩
      intro c s'' hstep''
      rw [sdkStep] at hstep''
      split at hstep''
      · exact Option.noConfusion hstep''
      · split at hstep''
        next e hinst =>
          have h' : s.inst = some e := hinst
          rw [hinstnone] at h'
          exact Option.noConfusion h'
        next hinst =>
          split at hstep''
          next q hslot =>
            exact Option.noConfusion (hslot : (none : Option Nat) = some q)
          next hslot =>
            injection hstep'' with hs''
            subst hs''
            exact ⟨rfl, rfl⟩
    next hcont =>
      exact Option.noConfusion hstep'

/-- Concrete C9 run: caller 0 launches the initialization, caller 1 joins it
mid-flight, the initialization succeeds, caller 2 arrives afterwards; every
caller receives engine 1 and the heavyweight init ran once. -/
theorem create_singleton_witness :
    (SdkState.mk (some 1) (some 0) [] 1 []
        [(2, Except.ok 1), (1, Except.ok 1), (0, Except.ok 1)] [2, 1, 0] 2).running.length ≤ 1
      ∧ ((∀ a ∈ [SdkAction.enter 0, SdkAction.enter 1, SdkAction.finishOk 0,
            SdkAction.enter 2], ∀ p, a ≠ SdkAction.finishFail p) →
          (SdkState.mk (some 1) (some 0) [] 1 []
            [(2, Except.ok 1), (1, Except.ok 1), (0, Except.ok 1)] [2, 1, 0] 2).started ≤ 1
            ∧ ((SdkState.mk (some 1) (some 0) [] 1 []
                [(2, Except.ok 1), (1, Except.ok 1), (0, Except.ok 1)] [2, 1, 0] 2).entered ≠ [] →
              (SdkState.mk (some 1) (some 0) [] 1 []
                [(2, Except.ok 1), (1, Except.ok 1), (0, Except.ok 1)] [2, 1, 0] 2).started = 1))
      ∧ (∀ c1 c2 e1 e2,
          (c1, Except.ok e1) ∈ (SdkState.mk (some 1) (some 0) [] 1 []
            [(2, Except.ok 1), (1, Except.ok 1), (0, Except.ok 1)] [2, 1, 0] 2).got →
          (c2, Except.ok e2) ∈ (SdkState.mk (some 1) (some 0) [] 1 []
            [(2, Except.ok 1), (1, Except.ok 1), (0, Except.ok 1)] [2, 1, 0] 2).got → e1 = e2)
      ∧ (∀ p s', sdkStep (SdkState.mk (some 1) (some 0) [] 1 []
            [(2, Except.ok 1), (1, Except.ok 1), (0, Except.ok 1)] [2, 1, 0] 2)
            (.finishFail p) = some s' →
          s'.slot = none
            ∧ ∀ c s'', sdkStep s' (.enter c) = some s'' →
                s''.started = s'.started + 1 ∧ s''.running.length = 1) :=
  create_singleton
    [SdkAction.enter 0, SdkAction.enter 1, SdkAction.finishOk 0, SdkAction.enter 2]
    (SdkState.mk (some 1) (some 0) [] 1 []
      [(2, Except.ok 1), (1, Except.ok 1), (0, Except.ok 1)] [2, 1, 0] 2)
    (by decide)
